import Mathlib

/-!
Shallow embedding of the pfhe core (src/hensel_code.rs, src/crypto_parameters.rs).

Big integers (`BigInt<L>`, bigint.rs, not under src/) are modelled as `ℕ`:
per the spec (section 3) a `BigInt(L)` is a non-negative integer whose
arithmetic is exact under the static parameter-sizing precondition, and
`resize` is value-preserving when the value fits.  `DynResidue` arithmetic
(crypto_bigint) is modelled as canonical least-non-negative residue
arithmetic modulo the (odd, in the intended use) modulus.  Fallible control
flow (the mismatched-moduli fatal termination of `Add`/`Mul`) is modelled
with `Option`.
-/

namespace PFHE

/-- Bounded search for the least `x` (scanning upward from `x`, `fuel`
candidates) with `a * x ≡ 1 (mod m)`; `0` when none exists in range. -/
def invSearch (a m : ℕ) : ℕ → ℕ → ℕ
  | _, 0 => 0
  | x, fuel + 1 => if a * x % m = 1 % m then x else invSearch a m (x + 1) fuel

/-- Model of `DynResidue::invert` (crypto_bigint): the modular inverse of
`a` modulo `m` when `gcd(a, m) = 1` (the inverse below `m` is unique, so
the search returns exactly it), an unspecified deterministic value
otherwise (the Rust API returns a value plus a validity flag; all call
sites in the core either guard with a gcd test or assume coprimality). -/
def invMod (a m : ℕ) : ℕ := invSearch a m 0 m

/-- src/hensel_code.rs:12-16 `HenselCode`: a modulus together with a stored
residue.  `params` (the Montgomery parameters) carry exactly the modulus. -/
structure HenselCode where
  modulus : ℕ
  res : ℕ
deriving DecidableEq

/-- src/hensel_code.rs:28-32 `HenselCode::generate_zero`. -/
def generate_zero (g : ℕ) : HenselCode := ⟨g, 0⟩

/-- src/hensel_code.rs:40-47 `new_hensel_code`: resize `n` to the width of
`g` (value-preserving in the ℕ model) and reduce it mod `g`. -/
def new_hensel_code (g n : ℕ) : HenselCode := ⟨g, n % g⟩

/-- src/hensel_code.rs:73-84 `impl Add for &HenselCode`: a fatal
termination (modelled as `none`) when the moduli differ, otherwise the sum
of the residues reduced modulo the shared modulus. -/
def hAdd (a b : HenselCode) : Option HenselCode :=
  if a.modulus = b.modulus then some ⟨a.modulus, (a.res + b.res) % a.modulus⟩
  else none

/-- src/hensel_code.rs:86-97 `impl Mul for &HenselCode`. -/
def hMul (a b : HenselCode) : Option HenselCode :=
  if a.modulus = b.modulus then some ⟨a.modulus, (a.res * b.res) % a.modulus⟩
  else none

/-- src/hensel_code.rs:99-136 `chinese_remainder`: combine `(g1, n1)` and
`(g2, n2)` into a code at modulus `g1 * g2` via the Bezout coefficients
`i1 = g1⁻¹ mod g2` and `i2 = g2⁻¹ mod g1`.  The Rust code lifts every
operand into `ℤ/(g1*g2)ℤ` and computes `g1*i1*n2 + g2*i2*n1` there; the
final reduction mod `g1*g2` makes the two computations extensionally
equal. -/
def chinese_remainder (hc1 hc2 : HenselCode) : HenselCode :=
  let g1 := hc1.modulus
  let n1 := hc1.res
  let g2 := hc2.modulus
  let n2 := hc2.res
  let g12 := g1 * g2
  let i1 := invMod (g1 % g2) g2
  let i2 := invMod (g2 % g1) g1
  ⟨g12, (g1 * i1 * n2 + g2 * i2 * n1) % g12⟩

/-- Modelled from the spec: `Rational<L>` (rational.rs, not under src/) is
a pair (num, den) of BigInts (section 3). -/
structure Rational where
  num : ℕ
  denom : ℕ
deriving DecidableEq

/-- Modelled from the spec: rational multiplication follows textbook ℚ
rules on (num, den) pairs (sections 3 and 6). -/
def ratMul (r s : Rational) : Rational := ⟨r.num * s.num, r.denom * s.denom⟩

/-- Modelled from the spec: rational addition follows textbook ℚ rules on
(num, den) pairs (sections 3 and 6). -/
def ratAdd (r s : Rational) : Rational :=
  ⟨r.num * s.denom + s.num * r.denom, r.denom * s.denom⟩

/-- Equality of two (num, den) pairs as elements of ℚ. -/
def ratEq (r s : Rational) : Prop := r.num * s.denom = r.denom * s.num

/-- src/hensel_code.rs:147-162 `impl From<(&BigInt, &Rational)> for
HenselCode`: if `gcd(g, den) > 1` return the canonical zero, else the
residue `den⁻¹ · num` modulo `g` (the Rust code first reduces `num` and
`den` modulo `g`, then inverts the reduced denominator). -/
def ofRational (g : ℕ) (r : Rational) : HenselCode :=
  if 1 < Nat.gcd g r.denom then generate_zero g
  else ⟨g, (invMod (r.denom % g) g * (r.num % g)) % g⟩

/-- Modelled from the spec: the backward conversion
`Rational::from(&HenselCode)` (rational.rs, not under src/), section 4.2:
a deterministic rational reconstruction that recovers, from `(g, n)`, a
pair (a, b) with `a ≡ n·b (mod g)` and both entries below the Wang bound
`sqrt(g/2)`.  `wangFrom g n b fuel` scans denominators upward from `b`:
for each candidate `b` the unique candidate numerator below the bound in
the class `n·b mod g` is `(n·b) % g`, and the scan stops at the first
success, so the result has the least reconstructible denominator. -/
def wangFrom (g n : ℕ) : ℕ → ℕ → Option (ℕ × ℕ)
  | _, 0 => none
  | b, fuel + 1 =>
    if 2 * b * b < g then
      if 2 * (n * b % g) * (n * b % g) < g then some (n * b % g, b)
      else wangFrom g n (b + 1) fuel
    else none

/-- Modelled from the spec: rational reconstruction (section 4.2), the
deterministic minimal-denominator realization of the Wang-bound contract;
on inputs outside the representable range it returns the unspecified but
deterministic fallback `(n, 1)`. -/
def ratFromHensel (hc : HenselCode) : Rational :=
  match wangFrom hc.modulus hc.res 1 hc.modulus with
  | some (a, b) => ⟨a, b⟩
  | none => ⟨hc.res, 1⟩

/-- src/crypto_parameters.rs:15-21 `CryptographicParameters`: the five
private primes. -/
structure CryptographicParameters where
  p1 : ℕ
  p2 : ℕ
  p3 : ℕ
  p4 : ℕ
  p5 : ℕ
deriving DecidableEq

/-- src/crypto_parameters.rs:44-47 `CryptographicParameters::public_key`
(doc comment: "Returns the product of the 5 primes used as crypto
parameters"; the body multiplies only four of them). -/
def public_key (P : CryptographicParameters) : ℕ :=
  P.p2 * P.p3 * P.p4 * P.p5

/-- src/crypto_parameters.rs:49-55 `CryptographicParameters::chinese_remainder`
(the spec's `three_prime_crt`). -/
def chinese_remainder3 (P : CryptographicParameters) (n1 n2 n3 : ℕ) : HenselCode :=
  chinese_remainder
    (chinese_remainder (new_hensel_code P.p1 n1) (new_hensel_code P.p2 n2))
    (new_hensel_code P.p3 n3)

/-- src/crypto_parameters.rs:57-100 `CryptographicParameters::encrypt`,
with the four random draws `s1 < p1`, `s2 < p2`, `s3 < p3`,
`delta < delta_max` passed as an explicit tape.  The final `+` is the
panicking HenselCode addition, hence the `Option` result (the moduli
always agree there). -/
def encrypt (P : CryptographicParameters) (m : Rational)
    (s1 s2 s3 delta : ℕ) : Option HenselCode :=
  let delta_max := P.p1 * P.p2 * P.p3 * P.p5
  let g := delta_max * P.p4
  let dp4 := new_hensel_code g (delta * P.p4)
  let hc_noise := chinese_remainder3 P 0 s2 s3
  let hc_noise_1 := ofRational (P.p1 * P.p2 * P.p3) ⟨hc_noise.res, P.p1⟩
  let r_noise := ratMul ⟨P.p1, 1⟩ (ratFromHensel hc_noise_1)
  let rs1 : Rational := ⟨s1, 1⟩
  let rational_term := ratAdd (ratMul rs1 r_noise) m
  hAdd (ofRational g rational_term) dp4

/-- src/crypto_parameters.rs:102-106 `CryptographicParameters::decrypt`. -/
def decrypt (P : CryptographicParameters) (hc : HenselCode) : Rational :=
  let hc_p4 := new_hensel_code P.p4 hc.res
  let r_p4 := ratFromHensel hc_p4
  ratFromHensel (ofRational P.p1 r_p4)

/-! ## Basic facts about the modular inverse -/

theorem invSearch_range {a m : ℕ} :
    ∀ (fuel x : ℕ), invSearch a m x fuel = 0 ∨
      (x ≤ invSearch a m x fuel ∧ invSearch a m x fuel < x + fuel) := by
  intro fuel
  induction fuel with
  | zero =>
    intro x
    exact Or.inl rfl
  | succ fuel ih =>
    intro x
    unfold invSearch
    split
    · exact Or.inr ⟨le_rfl, by omega⟩
    · rcases ih (x + 1) with h | ⟨h1, h2⟩
      · exact Or.inl h
      · exact Or.inr ⟨by omega, by omega⟩

theorem invSearch_isInv {a m : ℕ} :
    ∀ (fuel x x0 : ℕ), x ≤ x0 → x0 < x + fuel → a * x0 % m = 1 % m →
      a * invSearch a m x fuel % m = 1 % m := by
  intro fuel
  induction fuel with
  | zero =>
    intro x x0 h1 h2 _
    omega
  | succ fuel ih =>
    intro x x0 h1 h2 h3
    unfold invSearch
    split
    case isTrue h => exact h
    case isFalse h =>
      have hne : x ≠ x0 := fun he => h (he ▸ h3)
      exact ih (x + 1) x0 (by omega) (by omega) h3

theorem invMod_lt (a : ℕ) {m : ℕ} (hm : 0 < m) : invMod a m < m := by
  unfold invMod
  rcases invSearch_range (a := a) (m := m) m 0 with h | ⟨-, h⟩
  · omega
  · omega

theorem invMod_spec {a m : ℕ} (hm : 0 < m) (h : Nat.gcd a m = 1) :
    a * invMod a m % m = 1 % m := by
  have h1 : (0 : ℤ) < (m : ℤ) := by exact_mod_cast hm
  have hbez : (1 : ℤ) = a * Nat.gcdA a m + m * Nat.gcdB a m := by
    have := Nat.gcd_eq_gcd_ab a m
    rw [h] at this
    exact_mod_cast this
  set x0 : ℕ := (Nat.gcdA a m % (m : ℤ)).toNat with hx0def
  have h3 : (0 : ℤ) ≤ Nat.gcdA a m % (m : ℤ) := Int.emod_nonneg _ (by omega)
  have h4 : Nat.gcdA a m % (m : ℤ) < (m : ℤ) := Int.emod_lt_of_pos _ h1
  have hcast : (x0 : ℤ) = Nat.gcdA a m % (m : ℤ) := by
    rw [hx0def]
    omega
  have hx0m : x0 < m := by omega
  have key : ((a : ℤ) * (x0 : ℤ)) % m = 1 % (m : ℤ) := by
    rw [hcast, Int.mul_emod, Int.emod_emod_of_dvd _ dvd_rfl, ← Int.mul_emod]
    conv_rhs => rw [hbez]
    rw [Int.add_mul_emod_self_left]
  have hx0 : a * x0 % m = 1 % m := by exact_mod_cast key
  exact invSearch_isInv m 0 x0 (Nat.zero_le _) (by omega) hx0

/-! ## Structural facts about the embedding and the conversion -/

theorem ofRational_modulus (g : ℕ) (r : Rational) : (ofRational g r).modulus = g := by
  unfold ofRational generate_zero
  split <;> rfl

/-- The residue produced by the embedding in the coprime case: it is below
`g` and solves `den * x ≡ num (mod g)`. -/
theorem ofRational_res {g : ℕ} (r : Rational) (hg : 0 < g)
    (h : Nat.gcd g r.denom = 1) :
    (ofRational g r).res < g ∧
      r.denom * (ofRational g r).res % g = r.num % g := by
  have hnot : ¬ 1 < Nat.gcd g r.denom := by omega
  have hco : Nat.gcd (r.denom % g) g = 1 := by
    rw [← Nat.gcd_rec]
    exact h
  unfold ofRational
  rw [if_neg hnot]
  refine ⟨Nat.mod_lt _ hg, ?_⟩
  have hdi : r.denom * invMod (r.denom % g) g ≡ 1 [MOD g] := by
    show r.denom * invMod (r.denom % g) g % g = 1 % g
    calc r.denom * invMod (r.denom % g) g % g
        = r.denom % g * (invMod (r.denom % g) g % g) % g := Nat.mul_mod _ _ _
      _ = r.denom % g % g * (invMod (r.denom % g) g % g) % g := by
          rw [Nat.mod_mod]
      _ = r.denom % g * invMod (r.denom % g) g % g := (Nat.mul_mod _ _ _).symm
      _ = 1 % g := invMod_spec hg hco
  show r.denom * (invMod (r.denom % g) g * (r.num % g) % g) % g = r.num % g
  calc r.denom * (invMod (r.denom % g) g * (r.num % g) % g)
      ≡ r.denom * (invMod (r.denom % g) g * (r.num % g)) [MOD g] :=
        (Nat.mod_modEq _ g).mul_left _
    _ = r.denom * invMod (r.denom % g) g * (r.num % g) := by ring
    _ ≡ 1 * (r.num % g) [MOD g] := hdi.mul_right _
    _ = r.num % g := one_mul _
    _ ≡ r.num [MOD g] := Nat.mod_modEq _ _

/-- Any residue below `g` solving the congruence is the embedded one. -/
theorem ofRational_unique {g : ℕ} (r : Rational) (hg : 0 < g)
    (h : Nat.gcd g r.denom = 1) {x : ℕ} (hx : x < g)
    (hcong : r.denom * x % g = r.num % g) : x = (ofRational g r).res := by
  obtain ⟨hlt, hres⟩ := ofRational_res r hg h
  have hmeq : r.denom * x ≡ r.denom * (ofRational g r).res [MOD g] := by
    unfold Nat.ModEq
    rw [hcong, hres]
  have := Nat.ModEq.cancel_left_of_coprime h hmeq
  calc x = x % g := (Nat.mod_eq_of_lt hx).symm
    _ = (ofRational g r).res % g := this
    _ = (ofRational g r).res := Nat.mod_eq_of_lt hlt

/-- src/hensel_code.rs:99-136: correctness of the two-modulus CRT
combination under the coprimality precondition. -/
theorem chinese_remainder_sound (hc1 hc2 : HenselCode)
    (h1 : 0 < hc1.modulus) (h2 : 0 < hc2.modulus)
    (hco : Nat.gcd hc1.modulus hc2.modulus = 1) :
    (chinese_remainder hc1 hc2).modulus = hc1.modulus * hc2.modulus ∧
      (chinese_remainder hc1 hc2).res < hc1.modulus * hc2.modulus ∧
      (chinese_remainder hc1 hc2).res % hc1.modulus = hc1.res % hc1.modulus ∧
      (chinese_remainder hc1 hc2).res % hc2.modulus = hc2.res % hc2.modulus := by
  set g1 := hc1.modulus with hg1
  set g2 := hc2.modulus with hg2
  set n1 := hc1.res
  set n2 := hc2.res
  set i1 := invMod (g1 % g2) g2 with hi1
  set i2 := invMod (g2 % g1) g1 with hi2
  have h12 : 0 < g1 * g2 := Nat.mul_pos h1 h2
  have hmod : (chinese_remainder hc1 hc2).modulus = g1 * g2 := rfl
  have hres : (chinese_remainder hc1 hc2).res
      = (g1 * i1 * n2 + g2 * i2 * n1) % (g1 * g2) := rfl
  refine ⟨hmod, ?_, ?_, ?_⟩
  · rw [hres]
    exact Nat.mod_lt _ h12
  · rw [hres, Nat.mod_mod_of_dvd _ (Dvd.intro g2 rfl)]
    have hz : g1 * i1 * n2 ≡ 0 [MOD g1] :=
      Nat.modEq_zero_iff_dvd.mpr ⟨i1 * n2, by ring⟩
    have hone : g2 * i2 ≡ 1 [MOD g1] := by
      have hcg : Nat.gcd (g2 % g1) g1 = 1 := by
        rw [← Nat.gcd_rec]
        exact hco
      have := invMod_spec h1 hcg
      calc g2 * i2 % g1 = (g2 % g1) * (i2 % g1) % g1 := Nat.mul_mod _ _ _
        _ = (g2 % g1 % g1) * (i2 % g1) % g1 := by
            rw [Nat.mod_mod_of_dvd _ dvd_rfl]
        _ = (g2 % g1) * i2 % g1 := (Nat.mul_mod _ _ _).symm
        _ = 1 % g1 := this
    have hn1 : g2 * i2 * n1 ≡ 1 * n1 [MOD g1] := hone.mul_right n1
    calc (g1 * i1 * n2 + g2 * i2 * n1) % g1
        = (0 + 1 * n1) % g1 := hz.add hn1
      _ = n1 % g1 := by ring_nf
  · rw [hres, Nat.mod_mod_of_dvd _ (Dvd.intro_left g1 rfl)]
    have hz : g2 * i2 * n1 ≡ 0 [MOD g2] :=
      Nat.modEq_zero_iff_dvd.mpr ⟨i2 * n1, by ring⟩
    have hone : g1 * i1 ≡ 1 [MOD g2] := by
      have hcg : Nat.gcd (g1 % g2) g2 = 1 := by
        rw [← Nat.gcd_rec]
        rw [Nat.gcd_comm]
        exact hco
      have := invMod_spec h2 hcg
      calc g1 * i1 % g2 = (g1 % g2) * (i1 % g2) % g2 := Nat.mul_mod _ _ _
        _ = (g1 % g2 % g2) * (i1 % g2) % g2 := by
            rw [Nat.mod_mod_of_dvd _ dvd_rfl]
        _ = (g1 % g2) * i1 % g2 := (Nat.mul_mod _ _ _).symm
        _ = 1 % g2 := this
    have hn2 : g1 * i1 * n2 ≡ 1 * n2 [MOD g2] := hone.mul_right n2
    calc (g1 * i1 * n2 + g2 * i2 * n1) % g2
        = (1 * n2 + 0) % g2 := hn2.add hz
      _ = n2 % g2 := by ring_nf

/-! ## The rational-reconstruction search -/

theorem two_sq_mul_lt {g x y : ℕ} (hx : 2 * x * x < g) (hy : 2 * y * y < g) :
    x * y < g := by
  by_contra hcon
  push_neg at hcon
  have key : 2 * x * x * (2 * y * y) < g * g :=
    mul_lt_mul'' hx hy (Nat.zero_le _) (Nat.zero_le _)
  have h2 : g * g ≤ x * y * (x * y) := Nat.mul_le_mul hcon hcon
  have h3 : 2 * x * x * (2 * y * y) = 4 * (x * y * (x * y)) := by ring
  omega

theorem wangFrom_some {g n : ℕ} :
    ∀ {fuel b a2 b2 : ℕ}, wangFrom g n b fuel = some (a2, b2) →
      b ≤ b2 ∧ a2 = n * b2 % g ∧ 2 * b2 * b2 < g ∧ 2 * a2 * a2 < g ∧
      ∀ b3, b ≤ b3 → b3 < b2 → ¬ 2 * (n * b3 % g) * (n * b3 % g) < g := by
  intro fuel
  induction fuel with
  | zero =>
    intro b a2 b2 h
    simp [wangFrom] at h
  | succ fuel ih =>
    intro b a2 b2 h
    unfold wangFrom at h
    split at h
    case isTrue h1 =>
      split at h
      case isTrue h2 =>
        simp only [Option.some.injEq, Prod.mk.injEq] at h
        obtain ⟨ha, hb⟩ := h
        subst hb
        subst ha
        exact ⟨le_rfl, rfl, h1, h2, fun b3 h3 h4 => absurd h4 (by omega)⟩
      case isFalse h2 =>
        obtain ⟨hb, ha, hb2, ha2, hmin⟩ := ih h
        refine ⟨by omega, ha, hb2, ha2, ?_⟩
        intro b3 hb3 hlt
        rcases Nat.eq_or_lt_of_le hb3 with heq | hlt2
        · subst heq
          exact h2
        · exact hmin b3 hlt2 hlt
    case isFalse h1 =>
      exact absurd h (by simp)

theorem wangFrom_isSome {g n : ℕ} :
    ∀ (fuel b b0 : ℕ), b ≤ b0 → b0 < b + fuel → 2 * b0 * b0 < g →
      2 * (n * b0 % g) * (n * b0 % g) < g →
      ∃ p, wangFrom g n b fuel = some p := by
  intro fuel
  induction fuel with
  | zero =>
    intro b b0 h1 h2 _ _
    omega
  | succ fuel ih =>
    intro b b0 hle hlt hb0 ha0
    unfold wangFrom
    have hbb : 2 * b * b ≤ 2 * b0 * b0 :=
      Nat.mul_le_mul (Nat.mul_le_mul le_rfl hle) hle
    rw [if_pos (by omega : 2 * b * b < g)]
    by_cases h2 : 2 * (n * b % g) * (n * b % g) < g
    · exact ⟨_, by rw [if_pos h2]⟩
    · rw [if_neg h2]
      have hne : b ≠ b0 := fun he => h2 (he ▸ ha0)
      exact ih (b + 1) b0 (by omega) (by omega) hb0 ha0

/-- The Wang-bound reconstruction contract: whenever the residue `n` is the
image of a rational (num, den) whose entries lie below the bound, the
reconstruction returns a pair that is equal, as an element of ℚ, to
num/den, with the least reconstructible denominator. -/
theorem ratFromHensel_spec (g n num den : ℕ) (hden : 1 ≤ den)
    (hnum2 : 2 * num * num < g) (hden2 : 2 * den * den < g)
    (hcong : den * n % g = num % g) :
    ∃ a b, ratFromHensel ⟨g, n⟩ = ⟨a, b⟩ ∧ 1 ≤ b ∧ b ≤ den ∧
      a * den = num * b ∧ 2 * a * a < g ∧ 2 * b * b < g ∧
      ∀ b3, 1 ≤ b3 → b3 < b → ¬ 2 * (n * b3 % g) * (n * b3 % g) < g := by
  have hg : 0 < g := by nlinarith
  have hnum_lt : num < g := by nlinarith
  have hden_lt : den < g := by nlinarith
  have hc : n * den % g = num := by
    rw [mul_comm, hcong]
    exact Nat.mod_eq_of_lt hnum_lt
  obtain ⟨⟨a, b⟩, hw⟩ :=
    wangFrom_isSome (g := g) (n := n) g 1 den hden (by omega) hden2
      (by rw [hc]; exact hnum2)
  obtain ⟨hb1, ha, hb2g, ha2g, hmin⟩ := wangFrom_some hw
  have hrf : ratFromHensel ⟨g, n⟩ = ⟨a, b⟩ := by
    unfold ratFromHensel
    rw [hw]
  have hble : b ≤ den := by
    by_contra hbig
    push_neg at hbig
    exact hmin den hden hbig (by rw [hc]; exact hnum2)
  have hmeq : a * den ≡ num * b [MOD g] := by
    subst ha
    calc n * b % g * den
        ≡ n * b * den [MOD g] := (Nat.mod_modEq _ _).mul_right _
      _ = den * n * b := by ring
      _ ≡ num * b [MOD g] := Nat.ModEq.mul_right b hcong
  have hcross : a * den = num * b := by
    have h1 := hmeq
    unfold Nat.ModEq at h1
    rw [Nat.mod_eq_of_lt (two_sq_mul_lt ha2g hden2),
      Nat.mod_eq_of_lt (two_sq_mul_lt hnum2 hb2g)] at h1
    exact h1
  exact ⟨a, b, hrf, hb1, hble, hcross, ha2g, hb2g, fun b3 h3 h4 => hmin b3 h3 h4⟩

theorem ratFromHensel_zero {g : ℕ} (hg : 2 < g) :
    ratFromHensel ⟨g, 0⟩ = ⟨0, 1⟩ := by
  obtain ⟨a, b, hr, hb1, hble, hcross, -, -, -⟩ :=
    ratFromHensel_spec g 0 0 1 le_rfl (by omega) (by omega) (by simp)
  have hb : b = 1 := le_antisymm hble hb1
  have ha : a = 0 := by
    subst hb
    simpa using hcross
  rw [hr, ha, hb]

theorem ofRational_noncoprime (g : ℕ) (r : Rational) (hg : 0 < g)
    (h : Nat.gcd g r.denom ≠ 1) : ofRational g r = generate_zero g := by
  have hpos : 0 < Nat.gcd g r.denom := Nat.gcd_pos_of_pos_left _ hg
  unfold ofRational
  rw [if_pos (by omega)]

theorem lt_of_two_sq {g x : ℕ} (h : 2 * x * x < g) : x < g := by
  rcases Nat.eq_zero_or_pos x with hx | hx
  · subst hx
    omega
  · have h2 : 2 * x * 1 ≤ 2 * x * x := Nat.mul_le_mul le_rfl hx
    omega

/-! ## Claim theorems -/

/-- C2: the public-modulus accessor is claimed to return p1*p2*p3*p4*p5,
the modulus encrypt uses.  The code returns p2*p3*p4*p5: at the key
(3, 5, 7, 11, 13), `public_key` yields 5005 while the ciphertext modulus
produced by `encrypt` is 15015 = 3*5*7*11*13. -/
theorem public_key_omits_p1 :
    public_key ⟨3, 5, 7, 11, 13⟩ = 5005 ∧
      encrypt ⟨3, 5, 7, 11, 13⟩ ⟨0, 1⟩ 0 0 0 0 = some ⟨15015, 0⟩ ∧
      3 * 5 * 7 * 11 * 13 = 15015 ∧
      public_key ⟨3, 5, 7, 11, 13⟩ ≠ 15015 := by decide

/-- C3: the HenselCode built in encrypt at modulus p1*p2*p3 from the
rational (h_noise.residue)/p1 is claimed to carry the aligned-case lift
(h_noise.residue div p1) mod (p2*p3).  On the code it falls into the
gcd > 1 zero fallback: with (p1, p2, p3) = (3, 5, 7) and (s2, s3) = (1, 1),
h_noise.residue = 36 is divisible by p1 = 3, the intended lift is
36 / 3 mod 35 = 12, but the conversion returns the zero code. -/
theorem aligned_lift_falls_to_zero :
    (chinese_remainder3 ⟨3, 5, 7, 11, 13⟩ 0 1 1).res = 36 ∧
      36 % 3 = 0 ∧
      Nat.gcd (3 * 5 * 7) 3 = 3 ∧
      ofRational (3 * 5 * 7) ⟨36, 3⟩ = generate_zero 105 ∧
      36 / 3 % (5 * 7) = 12 ∧
      (ofRational (3 * 5 * 7) ⟨36, 3⟩).res ≠ 12 := by decide

/-- C4: for HenselCodes (g1, n1) and (g2, n2) with coprime positive
moduli, `chinese_remainder` returns modulus g1*g2 and a residue in
[0, g1*g2) congruent to n1 mod g1 and to n2 mod g2. -/
theorem crt_combine_sound (g1 n1 g2 n2 : ℕ) (h1 : 0 < g1) (h2 : 0 < g2)
    (hco : Nat.gcd g1 g2 = 1) :
    (chinese_remainder ⟨g1, n1⟩ ⟨g2, n2⟩).modulus = g1 * g2 ∧
      (chinese_remainder ⟨g1, n1⟩ ⟨g2, n2⟩).res < g1 * g2 ∧
      (chinese_remainder ⟨g1, n1⟩ ⟨g2, n2⟩).res % g1 = n1 % g1 ∧
      (chinese_remainder ⟨g1, n1⟩ ⟨g2, n2⟩).res % g2 = n2 % g2 :=
  chinese_remainder_sound ⟨g1, n1⟩ ⟨g2, n2⟩ h1 h2 hco

theorem crt_combine_sound_witness :
    (0 < 5 ∧ 0 < 7 ∧ Nat.gcd 5 7 = 1) ∧
      ((chinese_remainder ⟨5, 3⟩ ⟨7, 2⟩).modulus = 5 * 7 ∧
        (chinese_remainder ⟨5, 3⟩ ⟨7, 2⟩).res < 5 * 7 ∧
        (chinese_remainder ⟨5, 3⟩ ⟨7, 2⟩).res % 5 = 3 % 5 ∧
        (chinese_remainder ⟨5, 3⟩ ⟨7, 2⟩).res % 7 = 2 % 7) :=
  ⟨by decide, crt_combine_sound 5 3 7 2 (by decide) (by decide) (by decide)⟩

/-- C5: for every positive modulus g and rational r with
gcd(g, r.denom) ≠ 1, the rational-to-HenselCode conversion returns the
canonical zero code (g, 0) — a defined value substitution, there is no
error path in the conversion. -/
theorem embedding_noncoprime_zero (g : ℕ) (r : Rational) (hg : 0 < g)
    (h : Nat.gcd g r.denom ≠ 1) : ofRational g r = generate_zero g :=
  ofRational_noncoprime g r hg h

theorem embedding_noncoprime_zero_witness :
    (0 < 9 ∧ Nat.gcd 9 (Rational.mk 1 6).denom ≠ 1) ∧
      ofRational 9 ⟨1, 6⟩ = generate_zero 9 :=
  ⟨by decide, embedding_noncoprime_zero 9 ⟨1, 6⟩ (by decide) (by decide)⟩

/-- C6: for gcd(g, den) = 1 the conversion returns modulus g and the
unique residue below g solving den * x ≡ num (mod g), i.e. the value
(num mod g) * (den inverse mod g) mod g. -/
theorem embedding_coprime_residue (g : ℕ) (r : Rational) (hg : 0 < g)
    (h : Nat.gcd g r.denom = 1) :
    (ofRational g r).modulus = g ∧ (ofRational g r).res < g ∧
      r.denom * (ofRational g r).res % g = r.num % g ∧
      ∀ x, x < g → r.denom * x % g = r.num % g → x = (ofRational g r).res := by
  obtain ⟨hlt, hres⟩ := ofRational_res r hg h
  exact ⟨ofRational_modulus g r, hlt, hres,
    fun x hx hc => ofRational_unique r hg h hx hc⟩

theorem embedding_coprime_residue_witness :
    (0 < 37 ∧ Nat.gcd 37 (Rational.mk 6 8).denom = 1) ∧
      ((ofRational 37 ⟨6, 8⟩).modulus = 37 ∧ (ofRational 37 ⟨6, 8⟩).res < 37 ∧
        (Rational.mk 6 8).denom * (ofRational 37 ⟨6, 8⟩).res % 37
            = (Rational.mk 6 8).num % 37 ∧
        ∀ x, x < 37 → (Rational.mk 6 8).denom * x % 37
            = (Rational.mk 6 8).num % 37 → x = (ofRational 37 ⟨6, 8⟩).res) :=
  ⟨by decide, embedding_coprime_residue 37 ⟨6, 8⟩ (by decide) (by decide)⟩

/-- C7: HenselCode addition and multiplication end in the fatal
mismatched-moduli termination (modelled as `none`) exactly when the two
moduli differ; with equal (positive) moduli the results carry the shared
modulus and the canonical reduction of the integer sum, respectively
product, of the residues. -/
theorem hensel_arith_modulus_contract (a b : HenselCode) (hm : 0 < a.modulus) :
    (hAdd a b = none ↔ a.modulus ≠ b.modulus) ∧
      (hMul a b = none ↔ a.modulus ≠ b.modulus) ∧
      (a.modulus = b.modulus →
        ∃ c d, hAdd a b = some c ∧ hMul a b = some d ∧
          c.modulus = a.modulus ∧ d.modulus = a.modulus ∧
          c.res < a.modulus ∧ d.res < a.modulus ∧
          c.res = (a.res + b.res) % a.modulus ∧
          d.res = (a.res * b.res) % a.modulus) := by
  unfold hAdd hMul
  by_cases h : a.modulus = b.modulus
  · rw [if_pos h, if_pos h]
    exact ⟨by simp [h], by simp [h],
      fun _ => ⟨_, _, rfl, rfl, rfl, rfl, Nat.mod_lt _ hm, Nat.mod_lt _ hm,
        rfl, rfl⟩⟩
  · rw [if_neg h, if_neg h]
    exact ⟨by simp [h], by simp [h], fun hc => absurd hc h⟩

theorem hensel_arith_modulus_contract_witness :
    (0 < (HenselCode.mk 7 3).modulus) ∧
      ((hAdd ⟨7, 3⟩ ⟨7, 5⟩ = none ↔ (HenselCode.mk 7 3).modulus ≠ (HenselCode.mk 7 5).modulus) ∧
        (hMul ⟨7, 3⟩ ⟨7, 5⟩ = none ↔ (HenselCode.mk 7 3).modulus ≠ (HenselCode.mk 7 5).modulus) ∧
        ((HenselCode.mk 7 3).modulus = (HenselCode.mk 7 5).modulus →
          ∃ c d, hAdd ⟨7, 3⟩ ⟨7, 5⟩ = some c ∧ hMul ⟨7, 3⟩ ⟨7, 5⟩ = some d ∧
            c.modulus = (HenselCode.mk 7 3).modulus ∧
            d.modulus = (HenselCode.mk 7 3).modulus ∧
            c.res < (HenselCode.mk 7 3).modulus ∧
            d.res < (HenselCode.mk 7 3).modulus ∧
            c.res = ((HenselCode.mk 7 3).res + (HenselCode.mk 7 5).res) % (HenselCode.mk 7 3).modulus ∧
            d.res = ((HenselCode.mk 7 3).res * (HenselCode.mk 7 5).res) % (HenselCode.mk 7 3).modulus)) :=
  ⟨by decide, hensel_arith_modulus_contract ⟨7, 3⟩ ⟨7, 5⟩ (by decide)⟩

/-- C8: `CryptographicParameters::chinese_remainder` is computed by two
applications of the two-modulus CRT — first (p1, n1) with (p2, n2), then
the result with (p3, n3) — and, for positive pairwise-coprime primes,
returns modulus p1*p2*p3 and a residue congruent to n1 mod p1, n2 mod p2
and n3 mod p3. -/
theorem three_prime_crt_sound (P : CryptographicParameters) (n1 n2 n3 : ℕ)
    (h1 : 0 < P.p1) (h2 : 0 < P.p2) (h3 : 0 < P.p3)
    (h12 : Nat.gcd P.p1 P.p2 = 1) (h13 : Nat.gcd P.p1 P.p3 = 1)
    (h23 : Nat.gcd P.p2 P.p3 = 1) :
    chinese_remainder3 P n1 n2 n3 =
      chinese_remainder
        (chinese_remainder (new_hensel_code P.p1 n1) (new_hensel_code P.p2 n2))
        (new_hensel_code P.p3 n3) ∧
      (chinese_remainder3 P n1 n2 n3).modulus = P.p1 * P.p2 * P.p3 ∧
      (chinese_remainder3 P n1 n2 n3).res % P.p1 = n1 % P.p1 ∧
      (chinese_remainder3 P n1 n2 n3).res % P.p2 = n2 % P.p2 ∧
      (chinese_remainder3 P n1 n2 n3).res % P.p3 = n3 % P.p3 := by
  obtain ⟨m12, lt12, c1, c2⟩ :=
    chinese_remainder_sound (new_hensel_code P.p1 n1) (new_hensel_code P.p2 n2)
      h1 h2 h12
  set hc12 := chinese_remainder (new_hensel_code P.p1 n1) (new_hensel_code P.p2 n2)
    with hdef
  have hpos12 : 0 < hc12.modulus := by
    rw [m12]
    exact Nat.mul_pos h1 h2
  have hcop : Nat.gcd hc12.modulus (new_hensel_code P.p3 n3).modulus = 1 := by
    rw [m12]
    exact Nat.Coprime.mul h13 h23
  obtain ⟨M, LT, d1, d2⟩ :=
    chinese_remainder_sound hc12 (new_hensel_code P.p3 n3) hpos12 h3 hcop
  have hM : (chinese_remainder3 P n1 n2 n3).modulus = P.p1 * P.p2 * P.p3 := by
    show (chinese_remainder hc12 (new_hensel_code P.p3 n3)).modulus = _
    rw [M, m12]
    rfl
  have hmod1 : (chinese_remainder3 P n1 n2 n3).res % P.p1 = n1 % P.p1 := by
    show (chinese_remainder hc12 (new_hensel_code P.p3 n3)).res % P.p1 = _
    have hdvd : P.p1 ∣ hc12.modulus := by
      rw [m12]
      exact Dvd.intro P.p2 rfl
    calc (chinese_remainder hc12 (new_hensel_code P.p3 n3)).res % P.p1
        = (chinese_remainder hc12 (new_hensel_code P.p3 n3)).res
            % hc12.modulus % P.p1 := (Nat.mod_mod_of_dvd _ hdvd).symm
      _ = hc12.res % hc12.modulus % P.p1 := by rw [d1]
      _ = hc12.res % P.p1 := Nat.mod_mod_of_dvd _ hdvd
      _ = (new_hensel_code P.p1 n1).res % P.p1 := by
          have := c1
          rw [show (new_hensel_code P.p1 n1).modulus = P.p1 from rfl] at this
          exact this
      _ = n1 % P.p1 := by
          show n1 % P.p1 % P.p1 = n1 % P.p1
          exact Nat.mod_mod_of_dvd _ dvd_rfl
  have hmod2 : (chinese_remainder3 P n1 n2 n3).res % P.p2 = n2 % P.p2 := by
    show (chinese_remainder hc12 (new_hensel_code P.p3 n3)).res % P.p2 = _
    have hdvd : P.p2 ∣ hc12.modulus := by
      rw [m12]
      exact Dvd.intro_left P.p1 rfl
    calc (chinese_remainder hc12 (new_hensel_code P.p3 n3)).res % P.p2
        = (chinese_remainder hc12 (new_hensel_code P.p3 n3)).res
            % hc12.modulus % P.p2 := (Nat.mod_mod_of_dvd _ hdvd).symm
      _ = hc12.res % hc12.modulus % P.p2 := by rw [d1]
      _ = hc12.res % P.p2 := Nat.mod_mod_of_dvd _ hdvd
      _ = (new_hensel_code P.p2 n2).res % P.p2 := by
          have := c2
          rw [show (new_hensel_code P.p2 n2).modulus = P.p2 from rfl] at this
          exact this
      _ = n2 % P.p2 := by
          show n2 % P.p2 % P.p2 = n2 % P.p2
          exact Nat.mod_mod_of_dvd _ dvd_rfl
  have hmod3 : (chinese_remainder3 P n1 n2 n3).res % P.p3 = n3 % P.p3 := by
    show (chinese_remainder hc12 (new_hensel_code P.p3 n3)).res % P.p3 = _
    have := d2
    rw [show (new_hensel_code P.p3 n3).modulus = P.p3 from rfl] at this
    rw [this]
    show n3 % P.p3 % P.p3 = n3 % P.p3
    exact Nat.mod_mod_of_dvd _ dvd_rfl
  exact ⟨rfl, hM, hmod1, hmod2, hmod3⟩

theorem three_prime_crt_sound_witness :
    (0 < 5 ∧ 0 < 7 ∧ 0 < 11 ∧ Nat.gcd 5 7 = 1 ∧ Nat.gcd 5 11 = 1 ∧
        Nat.gcd 7 11 = 1) ∧
      (chinese_remainder3 ⟨5, 7, 11, 13, 17⟩ 3 2 1 =
          chinese_remainder
            (chinese_remainder (new_hensel_code 5 3) (new_hensel_code 7 2))
            (new_hensel_code 11 1) ∧
        (chinese_remainder3 ⟨5, 7, 11, 13, 17⟩ 3 2 1).modulus = 5 * 7 * 11 ∧
        (chinese_remainder3 ⟨5, 7, 11, 13, 17⟩ 3 2 1).res % 5 = 3 % 5 ∧
        (chinese_remainder3 ⟨5, 7, 11, 13, 17⟩ 3 2 1).res % 7 = 2 % 7 ∧
        (chinese_remainder3 ⟨5, 7, 11, 13, 17⟩ 3 2 1).res % 11 = 1 % 11) :=
  ⟨by decide, three_prime_crt_sound ⟨5, 7, 11, 13, 17⟩ 3 2 1 (by decide)
    (by decide) (by decide) (by decide) (by decide) (by decide)⟩

/-- C9: every HenselCode produced by the operations of the layer carries
the canonical-residue invariant 0 ≤ res < modulus (the lower bound is
inherent to ℕ); `new_hensel_code g n` carries modulus g (after the
value-preserving resize of n to the width of g) and a residue strictly
below g. -/
theorem canonical_residue_invariant (g n : ℕ) (a b hc1 hc2 : HenselCode)
    (r : Rational) (hg : 0 < g) (ha : 0 < a.modulus)
    (hm1 : 0 < hc1.modulus) (hm2 : 0 < hc2.modulus) :
    ((new_hensel_code g n).modulus = g ∧ (new_hensel_code g n).res < g) ∧
      (generate_zero g).res < (generate_zero g).modulus ∧
      (∀ c, hAdd a b = some c → c.res < c.modulus) ∧
      (∀ c, hMul a b = some c → c.res < c.modulus) ∧
      (chinese_remainder hc1 hc2).res < (chinese_remainder hc1 hc2).modulus ∧
      (ofRational g r).res < (ofRational g r).modulus := by
  refine ⟨⟨rfl, Nat.mod_lt _ hg⟩, hg, ?_, ?_, ?_, ?_⟩
  · intro c hc
    unfold hAdd at hc
    split at hc
    · cases hc
      exact Nat.mod_lt _ ha
    · cases hc
  · intro c hc
    unfold hMul at hc
    split at hc
    · cases hc
      exact Nat.mod_lt _ ha
    · cases hc
  · show (_ % (hc1.modulus * hc2.modulus)) < hc1.modulus * hc2.modulus
    exact Nat.mod_lt _ (Nat.mul_pos hm1 hm2)
  · unfold ofRational generate_zero
    split
    · exact hg
    · exact Nat.mod_lt _ hg

theorem canonical_residue_invariant_witness :
    (0 < 7 ∧ 0 < (HenselCode.mk 5 3).modulus ∧ 0 < (HenselCode.mk 3 2).modulus ∧
        0 < (HenselCode.mk 5 4).modulus) ∧
      (((new_hensel_code 7 10).modulus = 7 ∧ (new_hensel_code 7 10).res < 7) ∧
        (generate_zero 7).res < (generate_zero 7).modulus ∧
        (∀ c, hAdd ⟨5, 3⟩ ⟨5, 4⟩ = some c → c.res < c.modulus) ∧
        (∀ c, hMul ⟨5, 3⟩ ⟨5, 4⟩ = some c → c.res < c.modulus) ∧
        (chinese_remainder ⟨3, 2⟩ ⟨5, 4⟩).res
            < (chinese_remainder ⟨3, 2⟩ ⟨5, 4⟩).modulus ∧
        (ofRational 7 ⟨2, 3⟩).res < (ofRational 7 ⟨2, 3⟩).modulus) :=
  ⟨by decide, canonical_residue_invariant 7 10 ⟨5, 3⟩ ⟨5, 4⟩ ⟨3, 2⟩ ⟨5, 4⟩ ⟨2, 3⟩
    (by decide) (by decide) (by decide) (by decide)⟩

/-- C10: decrypt reads only p1, p4 and the ciphertext residue mod p4: two
parameter sets that agree on p1 and p4 (with arbitrary p2, p3, p5) and
two ciphertexts whose residues are congruent mod p4 decrypt to the same
rational; no random value is drawn. -/
theorem decrypt_depends_only_on_p1_p4 (P Q : CryptographicParameters)
    (c d : HenselCode) (h1 : P.p1 = Q.p1) (h4 : P.p4 = Q.p4)
    (hres : c.res % P.p4 = d.res % Q.p4) : decrypt P c = decrypt Q d := by
  unfold decrypt new_hensel_code
  rw [hres, h1, h4]

/-- C1 (amended): decrypt ∘ encrypt is the identity in ℚ for every random
tape, provided the plaintext denominator is a unit modulo the whole
ciphertext modulus p1*p2*p3*p5*p4 (not merely modulo p1*p4) and the
plaintext lies within the reconstruction bound at modulus p4 as well as
at modulus p1. -/
theorem decrypt_encrypt_identity (P : CryptographicParameters) (m : Rational)
    (s1 s2 s3 delta : ℕ) (hp1 : Nat.Prime P.p1) (hp2 : 2 ≤ P.p2)
    (hp3 : 2 ≤ P.p3) (hp5 : 1 ≤ P.p5) (hden : 1 ≤ m.denom)
    (hgcd : Nat.gcd (P.p1 * P.p2 * P.p3 * P.p5 * P.p4) m.denom = 1)
    (hn1 : 2 * m.num * m.num < P.p1) (hd1 : 2 * m.denom * m.denom < P.p1)
    (hn4 : 2 * m.num * m.num < P.p4) (hd4 : 2 * m.denom * m.denom < P.p4) :
    ∃ c, encrypt P m s1 s2 s3 delta = some c ∧ ratEq (decrypt P c) m := by
  obtain ⟨p1, p2, p3, p4, p5⟩ := P
  obtain ⟨num, den⟩ := m
  dsimp only at hp1 hp2 hp3 hp5 hden hgcd hn1 hd1 hn4 hd4
  have hp1two : 2 ≤ p1 := hp1.two_le
  have hdden : 1 ≤ den * den := Nat.mul_le_mul hden hden
  have hmm4 : 2 * den * den = 2 * (den * den) := by ring
  have hp4big : 2 < p4 := by omega
  have hp1pos : 0 < p1 := by omega
  have hp4pos : 0 < p4 := by omega
  have h123pos : 0 < p1 * p2 * p3 :=
    Nat.mul_pos (Nat.mul_pos hp1pos (by omega)) (by omega)
  have hGpos : 0 < p1 * p2 * p3 * p5 * p4 :=
    Nat.mul_pos (Nat.mul_pos h123pos (by omega)) hp4pos
  -- the encoded-zero branch: the aligned-denominator rational falls into
  -- the gcd > 1 fallback, so the whole noise term collapses to 0/1
  have hgcd3 : Nat.gcd (p1 * p2 * p3) p1 ≠ 1 := by
    have hd : p1 ∣ Nat.gcd (p1 * p2 * p3) p1 :=
      Nat.dvd_gcd ⟨p2 * p3, by ring⟩ dvd_rfl
    have hpos : 0 < Nat.gcd (p1 * p2 * p3) p1 :=
      Nat.gcd_pos_of_pos_left _ h123pos
    have hle := Nat.le_of_dvd hpos hd
    omega
  have hzfall : ofRational (p1 * p2 * p3)
      ⟨(chinese_remainder3 ⟨p1, p2, p3, p4, p5⟩ 0 s2 s3).res, p1⟩
      = generate_zero (p1 * p2 * p3) :=
    ofRational_noncoprime _ _ h123pos hgcd3
  have h123big : 2 < p1 * p2 * p3 := by
    have h8 : 2 * 2 * 2 ≤ p1 * p2 * p3 :=
      Nat.mul_le_mul (Nat.mul_le_mul hp1two hp2) hp3
    omega
  have hrz : ratFromHensel (generate_zero (p1 * p2 * p3)) = ⟨0, 1⟩ :=
    ratFromHensel_zero h123big
  have henc : encrypt ⟨p1, p2, p3, p4, p5⟩ ⟨num, den⟩ s1 s2 s3 delta
      = hAdd (ofRational (p1 * p2 * p3 * p5 * p4) ⟨num, den⟩)
          (new_hensel_code (p1 * p2 * p3 * p5 * p4) (delta * p4)) := by
    unfold encrypt
    dsimp only
    rw [hzfall, hrz]
    simp only [ratMul, ratAdd, Nat.mul_zero, Nat.zero_mul, Nat.mul_one,
      Nat.one_mul, Nat.zero_add]
  have hmodeq : (ofRational (p1 * p2 * p3 * p5 * p4) ⟨num, den⟩).modulus
      = (new_hensel_code (p1 * p2 * p3 * p5 * p4) (delta * p4)).modulus := by
    rw [ofRational_modulus]
    rfl
  have hsum : hAdd (ofRational (p1 * p2 * p3 * p5 * p4) ⟨num, den⟩)
        (new_hensel_code (p1 * p2 * p3 * p5 * p4) (delta * p4))
      = some ⟨p1 * p2 * p3 * p5 * p4,
          ((ofRational (p1 * p2 * p3 * p5 * p4) ⟨num, den⟩).res
              + delta * p4 % (p1 * p2 * p3 * p5 * p4))
            % (p1 * p2 * p3 * p5 * p4)⟩ := by
    unfold hAdd
    rw [if_pos hmodeq, ofRational_modulus]
    rfl
  obtain ⟨helt, hcongG⟩ :=
    ofRational_res (g := p1 * p2 * p3 * p5 * p4) ⟨num, den⟩ hGpos hgcd
  set e := (ofRational (p1 * p2 * p3 * p5 * p4) ⟨num, den⟩).res with hE
  refine ⟨⟨p1 * p2 * p3 * p5 * p4,
      (e + delta * p4 % (p1 * p2 * p3 * p5 * p4)) % (p1 * p2 * p3 * p5 * p4)⟩,
    henc.trans hsum, ?_⟩
  have hp4dvd : p4 ∣ p1 * p2 * p3 * p5 * p4 := ⟨p1 * p2 * p3 * p5, by ring⟩
  have hcres4 : (e + delta * p4 % (p1 * p2 * p3 * p5 * p4))
      % (p1 * p2 * p3 * p5 * p4) % p4 = e % p4 := by
    rw [Nat.mod_mod_of_dvd _ hp4dvd]
    have h5 : delta * p4 % (p1 * p2 * p3 * p5 * p4) % p4 = 0 := by
      rw [Nat.mod_mod_of_dvd _ hp4dvd]
      exact Nat.mul_mod_left delta p4
    calc (e + delta * p4 % (p1 * p2 * p3 * p5 * p4)) % p4
        = (e % p4 + delta * p4 % (p1 * p2 * p3 * p5 * p4) % p4) % p4 :=
          Nat.add_mod _ _ _
      _ = (e % p4 + 0) % p4 := by rw [h5]
      _ = e % p4 % p4 := by rw [Nat.add_zero]
      _ = e % p4 := Nat.mod_mod e p4
  have hcong4 : den * (e % p4) % p4 = num % p4 := by
    have h1 : den * (e % p4) ≡ den * e [MOD p4] :=
      (Nat.mod_modEq e p4).mul_left den
    have h2 : den * e ≡ num [MOD p4] := Nat.ModEq.of_dvd hp4dvd hcongG
    exact h1.trans h2
  obtain ⟨a, b, hr1, hb1, hble, hcross1, ha2, hb2, hmin⟩ :=
    ratFromHensel_spec p4 (e % p4) num den hden hn4 hd4 hcong4
  have hp1den : ¬ p1 ∣ den := by
    intro hdv
    have hd : p1 ∣ Nat.gcd (p1 * p2 * p3 * p5 * p4) den :=
      Nat.dvd_gcd ⟨p2 * p3 * p5 * p4, by ring⟩ hdv
    rw [hgcd] at hd
    have := Nat.le_of_dvd Nat.one_pos hd
    omega
  have hco4den : Nat.Coprime p4 den := Nat.Coprime.coprime_dvd_left hp4dvd hgcd
  have hp1b : ¬ p1 ∣ b := by
    intro hdvb
    have hpa : p1 ∣ a := by
      have h1 : p1 ∣ num * b := Dvd.dvd.mul_left hdvb num
      rw [← hcross1] at h1
      rcases (Nat.Prime.dvd_mul hp1).mp h1 with h | h
      · exact h
      · exact absurd h hp1den
    obtain ⟨a1, rfl⟩ := hpa
    obtain ⟨b1, rfl⟩ := hdvb
    have hb1pos : 1 ≤ b1 := by
      rcases Nat.eq_zero_or_pos b1 with h0 | h0
      · subst h0
        simp at hb1
      · exact h0
    have hbb1 : b1 < p1 * b1 := by
      have h2 : 2 * b1 ≤ p1 * b1 := Nat.mul_le_mul hp1two le_rfl
      omega
    have hcross2 : a1 * den = num * b1 := by
      have h2 : p1 * (a1 * den) = p1 * (num * b1) := by
        calc p1 * (a1 * den) = p1 * a1 * den := by ring
          _ = num * (p1 * b1) := hcross1
          _ = p1 * (num * b1) := by ring
      exact Nat.eq_of_mul_eq_mul_left (by omega) h2
    have ha1a : a1 ≤ p1 * a1 := Nat.le_mul_of_pos_left a1 hp1pos
    have ha1lt : a1 < p4 := by
      have := lt_of_two_sq ha2
      omega
    have hcong1' : (e % p4) * b1 % p4 = a1 := by
      have hmeq2 : den * a1 ≡ den * ((e % p4) * b1) [MOD p4] := by
        calc den * a1 = num * b1 := by rw [← hcross2]; ring
          _ ≡ den * (e % p4) * b1 [MOD p4] :=
            Nat.ModEq.mul_right b1 (Nat.ModEq.symm hcong4)
          _ = den * ((e % p4) * b1) := by ring
      have hmeq3 : a1 ≡ (e % p4) * b1 [MOD p4] :=
        Nat.ModEq.cancel_left_of_coprime hco4den hmeq2
      calc (e % p4) * b1 % p4 = a1 % p4 := hmeq3.symm
        _ = a1 := Nat.mod_eq_of_lt ha1lt
    exact hmin b1 hb1pos hbb1 (by
      rw [hcong1']
      have hle2 : 2 * a1 * a1 ≤ 2 * (p1 * a1) * (p1 * a1) :=
        Nat.mul_le_mul (Nat.mul_le_mul le_rfl ha1a) ha1a
      omega)
  have hbco : Nat.Coprime p1 b := (Nat.Prime.coprime_iff_not_dvd hp1).mpr hp1b
  have hanum : a ≤ num := by
    have h1 : num * b ≤ num * den := Nat.mul_le_mul le_rfl hble
    rw [← hcross1] at h1
    exact Nat.le_of_mul_le_mul_right h1 (by omega)
  obtain ⟨he2lt, hcong2G⟩ := ofRational_res (g := p1) ⟨a, b⟩ hp1pos hbco
  have hb2' : 2 * b * b < p1 := by
    have h1 : 2 * b * b ≤ 2 * den * den :=
      Nat.mul_le_mul (Nat.mul_le_mul le_rfl hble) hble
    omega
  have ha2' : 2 * a * a < p1 := by
    have h1 : 2 * a * a ≤ 2 * num * num :=
      Nat.mul_le_mul (Nat.mul_le_mul le_rfl hanum) hanum
    omega
  obtain ⟨a2, b2, hr2, hb21, hb2le, hcross3, -, -, -⟩ :=
    ratFromHensel_spec p1 ((ofRational p1 ⟨a, b⟩).res) a b hb1 ha2' hb2' hcong2G
  have hofr : ofRational p1 ⟨a, b⟩ = ⟨p1, (ofRational p1 ⟨a, b⟩).res⟩ := by
    calc ofRational p1 ⟨a, b⟩
        = ⟨(ofRational p1 ⟨a, b⟩).modulus, (ofRational p1 ⟨a, b⟩).res⟩ := rfl
      _ = ⟨p1, (ofRational p1 ⟨a, b⟩).res⟩ := by rw [ofRational_modulus]
  have hdec : decrypt ⟨p1, p2, p3, p4, p5⟩
      ⟨p1 * p2 * p3 * p5 * p4,
        (e + delta * p4 % (p1 * p2 * p3 * p5 * p4)) % (p1 * p2 * p3 * p5 * p4)⟩
      = ⟨a2, b2⟩ := by
    unfold decrypt new_hensel_code
    dsimp only
    rw [hcres4, hr1, hofr, hr2]
  rw [hdec]
  show a2 * den = b2 * num
  have hfin : a2 * den * b = b2 * num * b := by
    calc a2 * den * b = a2 * b * den := by ring
      _ = a * b2 * den := by rw [hcross3]
      _ = b2 * (a * den) := by ring
      _ = b2 * (num * b) := by rw [hcross1]
      _ = b2 * num * b := by ring
  exact Nat.eq_of_mul_eq_mul_right (by omega) hfin

set_option maxRecDepth 8000 in
/-- C1 (counterexample to the claim as stated): with the key
(101, 3, 7, 11, 13) and m = 1/3, the denominator 3 is coprime to
p1*p4 = 1111 and m lies within the reconstruction bound at p1 = 101,
yet on the all-zero random tape the embedding at g hits the gcd > 1
zero fallback (3 = p2 divides g) and decryption returns 0/1 ≠ 1/3. -/
theorem decrypt_encrypt_fails_for_p2_denominator :
    Nat.gcd ((101 : ℕ) * 11) 3 = 1 ∧ 2 * 1 * 1 < 101 ∧ 2 * 3 * 3 < 101 ∧
      encrypt ⟨101, 3, 7, 11, 13⟩ ⟨1, 3⟩ 0 0 0 0 = some ⟨303303, 0⟩ ∧
      decrypt ⟨101, 3, 7, 11, 13⟩ ⟨303303, 0⟩ = ⟨0, 1⟩ ∧
      ¬ ratEq ⟨0, 1⟩ ⟨1, 3⟩ := by
  refine ⟨by decide, by decide, by decide, by decide, by decide, ?_⟩
  unfold ratEq
  decide

theorem decrypt_encrypt_identity_witness :
    (Nat.Prime 13 ∧ 2 ≤ 3 ∧ 2 ≤ 5 ∧ 1 ≤ 7 ∧ 1 ≤ 2 ∧
        Nat.gcd (13 * 3 * 5 * 7 * 11) 2 = 1 ∧
        2 * 1 * 1 < 13 ∧ 2 * 2 * 2 < 13 ∧ 2 * 1 * 1 < 11 ∧ 2 * 2 * 2 < 11) ∧
      ∃ c, encrypt ⟨13, 3, 5, 11, 7⟩ ⟨1, 2⟩ 1 2 3 4 = some c ∧
        ratEq (decrypt ⟨13, 3, 5, 11, 7⟩ c) ⟨1, 2⟩ :=
  ⟨⟨by norm_num, by decide, by decide, by decide, by decide, by decide,
      by decide, by decide, by decide, by decide⟩,
    decrypt_encrypt_identity ⟨13, 3, 5, 11, 7⟩ ⟨1, 2⟩ 1 2 3 4 (by norm_num)
      (by decide) (by decide) (by decide) (by decide) (by decide) (by decide)
      (by decide) (by decide) (by decide)⟩

theorem decrypt_depends_only_on_p1_p4_witness :
    ((CryptographicParameters.mk 3 5 7 11 13).p1 = (CryptographicParameters.mk 3 11 13 11 17).p1 ∧
        (CryptographicParameters.mk 3 5 7 11 13).p4 = (CryptographicParameters.mk 3 11 13 11 17).p4 ∧
        (HenselCode.mk 15015 12).res % (CryptographicParameters.mk 3 5 7 11 13).p4
          = (HenselCode.mk 9009 23).res % (CryptographicParameters.mk 3 11 13 11 17).p4) ∧
      decrypt ⟨3, 5, 7, 11, 13⟩ ⟨15015, 12⟩ = decrypt ⟨3, 11, 13, 11, 17⟩ ⟨9009, 23⟩ :=
  ⟨by decide, decrypt_depends_only_on_p1_p4 ⟨3, 5, 7, 11, 13⟩ ⟨3, 11, 13, 11, 17⟩
    ⟨15015, 12⟩ ⟨9009, 23⟩ (by decide) (by decide) (by decide)⟩

end PFHE
